import Mathlib

set_option linter.unusedSectionVars false

/-!
Verification of the linear-system normalizer and notebook helpers of the
qiskit-tutorials HHL notebook (`legacy_tutorials/aqua/linear_systems_of_equations.ipynb`).

The normalizer (`HHL.matrix_resize`) is external library code whose callers
appear in the notebook; it is modelled here from the specification's §4.1
algorithm.  The helpers `create_eigs` and `fidelity` are embedded directly
from the notebook source.  Matrix entries range over an arbitrary star ring,
covering both the real and complex instances the notebook uses.
-/

namespace HHLNorm

variable {R : Type} [CommRing R] [StarRing R] [DecidableEq R]

/-- A matrix is a 2-D numeric array: a list of rows. -/
abbrev Mat (R : Type) : Type := List (List R)

/-- Entry lookup with a `0` default outside the stored rows/columns. -/
def entry (m : Mat R) (i j : Nat) : R := (m.getD i []).getD j 0

/-- Build a `p × p` matrix from an entry function. -/
def rangeMap (p : Nat) (f : Nat → Nat → R) : Mat R :=
  (List.range p).map fun i => (List.range p).map fun j => f i j

/-- Conjugate transpose of a (square) matrix. -/
def conjTranspose (m : Mat R) : Mat R :=
  rangeMap m.length fun i j => star (entry m j i)

/-- Squareness check: every row has length equal to the number of rows. -/
def isSquare (m : Mat R) : Bool := m.all fun row => decide (row.length = m.length)

/-- Modelled from the spec: the Hermiticity check of `HHL.matrix_resize`
(step 1 of §4.1), "whether `matrix` equals its own conjugate transpose". -/
def isHermitian (m : Mat R) : Bool := decide (m = conjTranspose m)

/-- Modelled from the spec: the standard Hermitian doubling
`H = [[0, matrix], [matrix†, 0]]` of size `2n` (step 1 of §4.1). -/
def hermitianEmbed (m : Mat R) : Mat R :=
  rangeMap (2 * m.length) fun i j =>
    if i < m.length then
      if j < m.length then 0 else entry m i (j - m.length)
    else
      if j < m.length then star (entry m j (i - m.length)) else 0

/-- Fuel-driven computation of the least `2^k ≥ d` with `k ≥ 1`; the fuel is an
upper bound on the halving depth, so `nextPow2` below always supplies enough. -/
def nextPow2Aux : Nat → Nat → Nat
  | 0, _ => 2
  | fuel + 1, d => if d ≤ 2 then 2 else 2 * nextPow2Aux fuel ((d + 1) / 2)

/-- Modelled from the spec: the next admissible power of two `2^k ≥ d`, `k ≥ 1`
(step 2 of §4.1 with the §4.1 minimum-register policy). -/
def nextPow2 (d : Nat) : Nat := nextPow2Aux d d

/-- Modelled from the spec: a dimension is acceptable to the solver iff it is
`2^k` with `k ≥ 1` (§3 invariant together with the §4.1 edge-case policy that
treats `1` as not a valid power of two, minimum register size `2^1`). -/
def isPow2Valid (d : Nat) : Bool := decide (2 ≤ d ∧ nextPow2 d = d)

/-- Modelled from the spec: pad `matrix` with an identity block on the
diagonal up to dimension `p` (step 2 of §4.1). -/
def padMatrix (m : Mat R) (p : Nat) : Mat R :=
  rangeMap p fun i j =>
    if i < m.length ∧ j < m.length then entry m i j
    else if i = j then 1 else 0

/-- Modelled from the spec: pad `vector` with zeros to length `p`
(steps 1 and 2 of §4.1). -/
def padVector (v : List R) (p : Nat) : List R :=
  v ++ List.replicate (p - v.length) 0

/-- Modelled from the spec: the single failure mode of the normalizer (§7). -/
inductive NormError : Type where
  | DimensionMismatch : NormError
deriving DecidableEq, Repr

/-- The result tuple `(matrix', vector', truncate_powerdim, truncate_hermitian)`
of §3. -/
structure NormalizationResult (R : Type) : Type where
  matrix : Mat R
  vector : List R
  truncate_powerdim : Bool
  truncate_hermitian : Bool
deriving DecidableEq, Repr

/-- Modelled from the spec: step 2 of §4.1, the power-of-two padding stage,
threading through the `truncate_hermitian` flag decided by step 1. -/
def pow2Step (m : Mat R) (v : List R) (th : Bool) : NormalizationResult R :=
  if isPow2Valid m.length then ⟨m, v, false, th⟩
  else ⟨padMatrix m (nextPow2 m.length), padVector v (nextPow2 m.length), true, th⟩

/-- Modelled from the spec: `normalize` = `HHL.matrix_resize` (§4.1).  Validates
dimensions, applies the Hermitian doubling when needed, then the power-of-two
padding. -/
def normalize (matrix : Mat R) (vector : List R) :
    Except NormError (NormalizationResult R) :=
  if isSquare matrix = true ∧ vector.length = matrix.length then
    if isHermitian matrix = true then
      Except.ok (pow2Step matrix vector false)
    else
      Except.ok (pow2Step (hermitianEmbed matrix)
        (padVector vector (2 * matrix.length)) true)
  else
    Except.error NormError.DimensionMismatch

theorem rangeMap_length (p : Nat) (f : Nat → Nat → R) : (rangeMap p f).length = p := by
  simp [rangeMap]

theorem entry_rangeMap (p : Nat) (f : Nat → Nat → R) {i j : Nat}
    (hi : i < p) (hj : j < p) : entry (rangeMap p f) i j = f i j := by
  have h1 : ((List.range p).map fun a => (List.range p).map fun b => f a b).getD i []
      = (List.range p).map fun b => f i b := by
    rw [List.getD_eq_getElem _ _ (by simpa using hi)]
    simp only [List.getElem_map, List.getElem_range]
  have h2 : ((List.range p).map fun b => f i b).getD j 0 = f i j := by
    rw [List.getD_eq_getElem _ _ (by simpa using hj)]
    simp only [List.getElem_map, List.getElem_range]
  unfold entry rangeMap
  rw [h1, h2]

theorem rangeMap_congr {p : Nat} {f g : Nat → Nat → R}
    (h : ∀ i < p, ∀ j < p, f i j = g i j) : rangeMap p f = rangeMap p g := by
  unfold rangeMap
  refine List.map_congr_left fun i hi => ?_
  refine List.map_congr_left fun j hj => ?_
  exact h i (List.mem_range.mp hi) j (List.mem_range.mp hj)

theorem isSquare_rangeMap (p : Nat) (f : Nat → Nat → R) :
    isSquare (rangeMap p f) = true := by
  simp only [isSquare, List.all_eq_true, rangeMap, List.mem_map, List.mem_range]
  rintro row ⟨i, hi, rfl⟩
  simp

theorem conjTranspose_rangeMap (p : Nat) (f : Nat → Nat → R) :
    conjTranspose (rangeMap p f) = rangeMap p fun i j => star (f j i) := by
  unfold conjTranspose
  rw [rangeMap_length]
  exact rangeMap_congr fun i hi j hj => by rw [entry_rangeMap p f hj hi]

theorem rangeMap_hermitian {p : Nat} {f : Nat → Nat → R}
    (h : ∀ i < p, ∀ j < p, f i j = star (f j i)) :
    rangeMap p f = conjTranspose (rangeMap p f) := by
  rw [conjTranspose_rangeMap]
  exact rangeMap_congr h

theorem entry_of_hermitian {m : Mat R} (hm : m = conjTranspose m)
    {i j : Nat} (hi : i < m.length) (hj : j < m.length) :
    entry m i j = star (entry m j i) := by
  conv_lhs => rw [hm]
  unfold conjTranspose
  rw [entry_rangeMap _ _ hi hj]

theorem isSquare_of_hermitian {m : Mat R} (hm : m = conjTranspose m) :
    isSquare m = true := by
  rw [hm]
  unfold conjTranspose
  exact isSquare_rangeMap _ _

theorem hermitianEmbed_length (m : Mat R) :
    (hermitianEmbed m).length = 2 * m.length := by
  simp [hermitianEmbed, rangeMap_length]

theorem hermitianEmbed_hermitian (m : Mat R) :
    hermitianEmbed m = conjTranspose (hermitianEmbed m) := by
  unfold hermitianEmbed
  apply rangeMap_hermitian
  intro i hi j hj
  by_cases h1 : i < m.length <;> by_cases h2 : j < m.length <;> simp [h1, h2]

theorem padMatrix_length (m : Mat R) (p : Nat) : (padMatrix m p).length = p := by
  simp [padMatrix, rangeMap_length]

theorem padMatrix_hermitian {m : Mat R} (hm : m = conjTranspose m) (p : Nat) :
    padMatrix m p = conjTranspose (padMatrix m p) := by
  unfold padMatrix
  apply rangeMap_hermitian
  intro i hi j hj
  by_cases h1 : i < m.length <;> by_cases h2 : j < m.length
  · simpa [h1, h2] using entry_of_hermitian hm h1 h2
  · have hij : i ≠ j := by omega
    simp [h1, h2, hij, Ne.symm hij]
  · have hij : i ≠ j := by omega
    simp [h1, h2, hij, Ne.symm hij]
  · by_cases h3 : i = j
    · simp [h1, h2, h3]
    · simp [h1, h2, h3, Ne.symm h3]

theorem padVector_length {v : List R} {p : Nat} (h : v.length ≤ p) :
    (padVector v p).length = p := by
  simp only [padVector, List.length_append, List.length_replicate]
  omega

theorem nextPow2Aux_good : ∀ fuel d, d ≤ fuel + 2 →
    (∃ k, 1 ≤ k ∧ nextPow2Aux fuel d = 2 ^ k) ∧
    d ≤ nextPow2Aux fuel d ∧
    ∀ j, 1 ≤ j → d ≤ 2 ^ j → nextPow2Aux fuel d ≤ 2 ^ j := by
  intro fuel
  induction fuel with
  | zero =>
    intro d hd
    refine ⟨⟨1, le_refl 1, rfl⟩, by simpa [nextPow2Aux] using hd, ?_⟩
    intro j hj _
    calc nextPow2Aux 0 d = 2 ^ 1 := rfl
      _ ≤ 2 ^ j := Nat.pow_le_pow_right (by norm_num) hj
  | succ fuel ih =>
    intro d hd
    by_cases h2 : d ≤ 2
    · refine ⟨⟨1, le_refl 1, by simp [nextPow2Aux, h2]⟩, ?_, ?_⟩
      · simp only [nextPow2Aux, if_pos h2]
        exact h2
      · intro j hj _
        simp only [nextPow2Aux, if_pos h2]
        calc (2 : Nat) = 2 ^ 1 := rfl
          _ ≤ 2 ^ j := Nat.pow_le_pow_right (by norm_num) hj
    · have hrec : (d + 1) / 2 ≤ fuel + 2 := by omega
      obtain ⟨⟨k, hk, hkeq⟩, hle, hmin⟩ := ih ((d + 1) / 2) hrec
      have heq : nextPow2Aux (fuel + 1) d = 2 * nextPow2Aux fuel ((d + 1) / 2) := by
        simp only [nextPow2Aux, if_neg h2]
      refine ⟨⟨k + 1, by omega, by rw [heq, hkeq, pow_succ]; ring⟩, ?_, ?_⟩
      · rw [heq]
        omega
      · intro j hj hdj
        rcases Nat.exists_eq_add_of_le hj with ⟨j', rfl⟩
        have hpow : (2 : Nat) ^ (1 + j') = 2 * 2 ^ j' := by
          rw [pow_add]
          ring
        have hj1 : 1 ≤ j' := by
          rcases Nat.eq_zero_or_pos j' with h0 | h0
          · subst h0
            simp at hdj
            omega
          · exact h0
        have hhalf : (d + 1) / 2 ≤ 2 ^ j' := by omega
        have hx := hmin j' hj1 hhalf
        rw [heq]
        omega

theorem le_nextPow2 (d : Nat) : d ≤ nextPow2 d :=
  (nextPow2Aux_good d d (by omega)).2.1

theorem nextPow2_eq_pow (d : Nat) : ∃ k, 1 ≤ k ∧ nextPow2 d = 2 ^ k :=
  (nextPow2Aux_good d d (by omega)).1

theorem nextPow2_min {d j : Nat} (hj : 1 ≤ j) (h : d ≤ 2 ^ j) :
    nextPow2 d ≤ 2 ^ j :=
  (nextPow2Aux_good d d (by omega)).2.2 j hj h

theorem isPow2Valid_iff (d : Nat) :
    isPow2Valid d = true ↔ ∃ k, 1 ≤ k ∧ d = 2 ^ k := by
  simp only [isPow2Valid, decide_eq_true_eq]
  constructor
  · rintro ⟨h2, hfix⟩
    obtain ⟨k, hk, hkeq⟩ := nextPow2_eq_pow d
    exact ⟨k, hk, by rw [← hfix, hkeq]⟩
  · rintro ⟨k, hk, rfl⟩
    refine ⟨?_, le_antisymm (nextPow2_min hk (le_refl _)) (le_nextPow2 _)⟩
    calc (2 : Nat) = 2 ^ 1 := rfl
      _ ≤ 2 ^ k := Nat.pow_le_pow_right (by norm_num) hk

theorem isHermitian_iff (m : Mat R) :
    isHermitian m = true ↔ m = conjTranspose m := by
  simp [isHermitian]

instance {ε α : Type} [DecidableEq ε] [DecidableEq α] : DecidableEq (Except ε α) :=
  fun x y =>
    match x, y with
    | Except.ok a, Except.ok b => decidable_of_iff (a = b) (by simp)
    | Except.error a, Except.error b => decidable_of_iff (a = b) (by simp)
    | Except.ok _, Except.error _ => isFalse (by simp)
    | Except.error _, Except.ok _ => isFalse (by simp)

theorem pow2Step_matrix_hermitian {m : Mat R} (hm : m = conjTranspose m)
    (v : List R) (th : Bool) :
    (pow2Step m v th).matrix = conjTranspose (pow2Step m v th).matrix := by
  unfold pow2Step
  split_ifs
  · exact hm
  · exact padMatrix_hermitian hm _

theorem pow2Step_dim (m : Mat R) (v : List R) (th : Bool) :
    ∃ k, 1 ≤ k ∧ (pow2Step m v th).matrix.length = 2 ^ k := by
  unfold pow2Step
  split_ifs with hp
  · obtain ⟨k, hk, hd⟩ := (isPow2Valid_iff m.length).mp hp
    exact ⟨k, hk, hd⟩
  · obtain ⟨k, hk, hd⟩ := nextPow2_eq_pow m.length
    exact ⟨k, hk, by simpa [padMatrix_length] using hd⟩

theorem pow2Step_vector_length {m : Mat R} {v : List R} (hv : v.length = m.length)
    (th : Bool) :
    (pow2Step m v th).vector.length = (pow2Step m v th).matrix.length := by
  unfold pow2Step
  split_ifs
  · exact hv
  · rw [padVector_length (hv ▸ le_nextPow2 m.length), padMatrix_length]

theorem pow2Step_truncate_hermitian (m : Mat R) (v : List R) (th : Bool) :
    (pow2Step m v th).truncate_hermitian = th := by
  unfold pow2Step
  split_ifs <;> rfl

theorem pow2Step_isSquare {m : Mat R} (hsq : isSquare m = true) (v : List R)
    (th : Bool) : isSquare (pow2Step m v th).matrix = true := by
  unfold pow2Step
  split_ifs
  · exact hsq
  · exact isSquare_rangeMap _ _

theorem normalize_hermitian_branch {m : Mat R} {v : List R}
    (hsq : isSquare m = true) (hlen : v.length = m.length)
    (hherm : isHermitian m = true) :
    normalize m v = Except.ok (pow2Step m v false) := by
  simp [normalize, hsq, hlen, hherm]

theorem normalize_nonhermitian_branch {m : Mat R} {v : List R}
    (hsq : isSquare m = true) (hlen : v.length = m.length)
    (hherm : isHermitian m = false) :
    normalize m v = Except.ok (pow2Step (hermitianEmbed m)
      (padVector v (2 * m.length)) true) := by
  simp [normalize, hsq, hlen, hherm]

theorem normalize_ok_props {m : Mat R} {v : List R} {r : NormalizationResult R}
    (h : normalize m v = Except.ok r) :
    r.matrix = conjTranspose r.matrix ∧
    (∃ k, 1 ≤ k ∧ r.matrix.length = 2 ^ k) ∧
    isSquare r.matrix = true ∧
    r.vector.length = r.matrix.length := by
  unfold normalize at h
  split_ifs at h with hvalid hherm
  · injection h with h
    subst h
    exact ⟨pow2Step_matrix_hermitian ((isHermitian_iff m).mp hherm) v false,
      pow2Step_dim m v false, pow2Step_isSquare hvalid.1 v false,
      pow2Step_vector_length hvalid.2 false⟩
  · injection h with h
    subst h
    refine ⟨pow2Step_matrix_hermitian (hermitianEmbed_hermitian m) _ true,
      pow2Step_dim _ _ true,
      pow2Step_isSquare (isSquare_of_hermitian (hermitianEmbed_hermitian m)) _ true,
      pow2Step_vector_length ?_ true⟩
    rw [hermitianEmbed_length]
    exact padVector_length (by omega)

/-- C1: every result the normalizer accepts has an exactly Hermitian output
matrix whose dimension is `2^k` for some `k ≥ 1`. -/
theorem normalize_output_hermitian_pow2 {R : Type} [CommRing R] [StarRing R]
    [DecidableEq R] (m : Mat R) (v : List R) (r : NormalizationResult R)
    (h : normalize m v = Except.ok r) :
    r.matrix = conjTranspose r.matrix ∧ ∃ k, 1 ≤ k ∧ r.matrix.length = 2 ^ k :=
  ⟨(normalize_ok_props h).1, (normalize_ok_props h).2.1⟩

/-- The notebook's first concrete system: `matrix = [[1, 0], [0, 2]]`. -/
def exampleMatrix : Mat ℚ := [[1, 0], [0, 2]]

/-- The notebook's first concrete right-hand side: `vector = [1, 4]`. -/
def exampleVector : List ℚ := [1, 4]

/-- Witness for C1 at the notebook's `[[1,0],[0,2]]`, `[1,4]` input. -/
theorem normalize_output_hermitian_pow2_witness :
    normalize exampleMatrix exampleVector
      = Except.ok (⟨exampleMatrix, exampleVector, false, false⟩ :
          NormalizationResult ℚ) ∧
    ((⟨exampleMatrix, exampleVector, false, false⟩ :
        NormalizationResult ℚ).matrix
      = conjTranspose (⟨exampleMatrix, exampleVector, false, false⟩ :
          NormalizationResult ℚ).matrix ∧
     ∃ k, 1 ≤ k ∧ (⟨exampleMatrix, exampleVector, false, false⟩ :
          NormalizationResult ℚ).matrix.length = 2 ^ k) :=
  ⟨by decide, normalize_output_hermitian_pow2 exampleMatrix exampleVector _
    (by decide)⟩

/-- C2: for a square non-Hermitian matrix with a matching vector, `normalize`
builds the doubled embedding `H = [[0, matrix], [matrix†, 0]]` of size `2n`,
zero-pads the vector to length `2n`, sets `truncate_hermitian = true`, and the
returned matrix is exactly Hermitian. -/
theorem normalize_nonhermitian_embedding {R : Type} [CommRing R] [StarRing R]
    [DecidableEq R] (m : Mat R) (v : List R)
    (hsq : isSquare m = true) (hlen : v.length = m.length)
    (hherm : isHermitian m = false) :
    normalize m v = Except.ok (pow2Step (hermitianEmbed m)
        (padVector v (2 * m.length)) true) ∧
    (hermitianEmbed m).length = 2 * m.length ∧
    (padVector v (2 * m.length)).length = 2 * m.length ∧
    (pow2Step (hermitianEmbed m) (padVector v (2 * m.length))
        true).truncate_hermitian = true ∧
    (pow2Step (hermitianEmbed m) (padVector v (2 * m.length)) true).matrix
      = conjTranspose (pow2Step (hermitianEmbed m)
          (padVector v (2 * m.length)) true).matrix := by
  refine ⟨normalize_nonhermitian_branch hsq hlen hherm, hermitianEmbed_length m,
    padVector_length (by omega), pow2Step_truncate_hermitian _ _ _,
    pow2Step_matrix_hermitian (hermitianEmbed_hermitian m) _ _⟩

/-- A non-Hermitian square matrix used to exercise the doubling branch. -/
def nonHermMatrix : Mat ℚ := [[0, 1], [0, 0]]

/-- Right-hand side paired with `nonHermMatrix`. -/
def nonHermVector : List ℚ := [1, 2]

/-- Witness for C2 at the non-Hermitian input `[[0,1],[0,0]]`, `[1,2]`. -/
theorem normalize_nonhermitian_embedding_witness :
    (isSquare nonHermMatrix = true ∧
     nonHermVector.length = nonHermMatrix.length ∧
     isHermitian nonHermMatrix = false) ∧
    (normalize nonHermMatrix nonHermVector
      = Except.ok (pow2Step (hermitianEmbed nonHermMatrix)
          (padVector nonHermVector (2 * nonHermMatrix.length)) true) ∧
     (hermitianEmbed nonHermMatrix).length = 2 * nonHermMatrix.length ∧
     (padVector nonHermVector (2 * nonHermMatrix.length)).length
        = 2 * nonHermMatrix.length ∧
     (pow2Step (hermitianEmbed nonHermMatrix)
        (padVector nonHermVector (2 * nonHermMatrix.length))
        true).truncate_hermitian = true ∧
     (pow2Step (hermitianEmbed nonHermMatrix)
        (padVector nonHermVector (2 * nonHermMatrix.length)) true).matrix
       = conjTranspose (pow2Step (hermitianEmbed nonHermMatrix)
           (padVector nonHermVector (2 * nonHermMatrix.length)) true).matrix) :=
  ⟨⟨by decide, by decide, by decide⟩,
    normalize_nonhermitian_embedding nonHermMatrix nonHermVector
      (by decide) (by decide) (by decide)⟩

/-- C4: a square Hermitian matrix of admissible power-of-two dimension is
returned unchanged, with both flags false. -/
theorem normalize_unchanged_on_valid {R : Type} [CommRing R] [StarRing R]
    [DecidableEq R] (m : Mat R) (v : List R)
    (hsq : isSquare m = true) (hlen : v.length = m.length)
    (hherm : isHermitian m = true) (hpow : isPow2Valid m.length = true) :
    normalize m v = Except.ok ⟨m, v, false, false⟩ := by
  rw [normalize_hermitian_branch hsq hlen hherm]
  unfold pow2Step
  rw [if_pos hpow]

/-- Witness for C4 at the notebook input `[[1,0],[0,2]]`, `[1,4]`. -/
theorem normalize_unchanged_on_valid_witness :
    (isSquare exampleMatrix = true ∧
     exampleVector.length = exampleMatrix.length ∧
     isHermitian exampleMatrix = true ∧
     isPow2Valid exampleMatrix.length = true) ∧
    normalize exampleMatrix exampleVector
      = Except.ok ⟨exampleMatrix, exampleVector, false, false⟩ :=
  ⟨⟨by decide, by decide, by decide, by decide⟩,
    normalize_unchanged_on_valid exampleMatrix exampleVector
      (by decide) (by decide) (by decide) (by decide)⟩

/-- C5: `normalize` fails (necessarily with `DimensionMismatch`, the sole error
constructor) exactly when the matrix is not square or the vector length
differs from the matrix dimension. -/
theorem normalize_error_iff {R : Type} [CommRing R] [StarRing R] [DecidableEq R]
    (m : Mat R) (v : List R) (e : NormError) :
    normalize m v = Except.error e
      ↔ (isSquare m = false ∨ v.length ≠ m.length) := by
  cases e
  unfold normalize
  split_ifs with hvalid hherm
  · simp [hvalid.1, hvalid.2]
  · simp [hvalid.1, hvalid.2]
  · have hor : isSquare m = false ∨ v.length ≠ m.length := by
      rcases Decidable.em (isSquare m = true) with h | h
      · exact Or.inr fun hl => hvalid ⟨h, hl⟩
      · simp at h
        exact Or.inl h
    simp [hor]

/-- C6: `normalize` is idempotent — renormalizing an accepted output returns
it unchanged with both flags false. -/
theorem normalize_idempotent {R : Type} [CommRing R] [StarRing R]
    [DecidableEq R] (m : Mat R) (v : List R) (r : NormalizationResult R)
    (h : normalize m v = Except.ok r) :
    normalize r.matrix r.vector = Except.ok ⟨r.matrix, r.vector, false, false⟩ := by
  obtain ⟨hherm, ⟨k, hk, hdim⟩, hsq, hlen⟩ := normalize_ok_props h
  have hpow : isPow2Valid r.matrix.length = true :=
    (isPow2Valid_iff _).mpr ⟨k, hk, hdim⟩
  rw [normalize_hermitian_branch hsq hlen ((isHermitian_iff _).mpr hherm)]
  unfold pow2Step
  rw [if_pos hpow]

/-- Witness for C6: renormalizing the output at the notebook input. -/
theorem normalize_idempotent_witness :
    normalize exampleMatrix exampleVector
      = Except.ok (⟨exampleMatrix, exampleVector, false, false⟩ :
          NormalizationResult ℚ) ∧
    normalize (⟨exampleMatrix, exampleVector, false, false⟩ :
        NormalizationResult ℚ).matrix
      (⟨exampleMatrix, exampleVector, false, false⟩ :
        NormalizationResult ℚ).vector
      = Except.ok ⟨(⟨exampleMatrix, exampleVector, false, false⟩ :
          NormalizationResult ℚ).matrix,
        (⟨exampleMatrix, exampleVector, false, false⟩ :
          NormalizationResult ℚ).vector, false, false⟩ :=
  ⟨by decide, normalize_idempotent exampleMatrix exampleVector _ (by decide)⟩

theorem nextPow2_min_all {d j : Nat} (hd : 2 ≤ d) (h : d ≤ 2 ^ j) :
    nextPow2 d ≤ 2 ^ j := by
  rcases Nat.eq_zero_or_pos j with rfl | hj
  · simp at h
    omega
  · exact nextPow2_min hj h

/-- C3: when the (possibly Hermitian-doubled) dimension is not an exact power
of two, `normalize` pads the matrix with an identity block and the vector with
zeros, the returned dimension is the smallest power of two at least that
dimension, and `truncate_powerdim = true`. -/
theorem normalize_pads_to_least_pow2 {R : Type} [CommRing R] [StarRing R]
    [DecidableEq R] (m : Mat R) (v : List R) (m1 : Mat R) (v1 : List R)
    (th : Bool) (hsq : isSquare m = true) (hlen : v.length = m.length)
    (hn : 0 < m.length)
    (hbranch : (m1, v1, th) = if isHermitian m = true then (m, v, false)
        else (hermitianEmbed m, padVector v (2 * m.length), true))
    (hnp : ¬ ∃ k, m1.length = 2 ^ k) :
    normalize m v = Except.ok ⟨padMatrix m1 (nextPow2 m1.length),
        padVector v1 (nextPow2 m1.length), true, th⟩ ∧
    (padMatrix m1 (nextPow2 m1.length)).length = nextPow2 m1.length ∧
    (∃ k, nextPow2 m1.length = 2 ^ k) ∧
    m1.length ≤ nextPow2 m1.length ∧
    (∀ j, m1.length ≤ 2 ^ j → nextPow2 m1.length ≤ 2 ^ j) := by
  have hd1 : m1.length ≠ 1 := fun h1 => hnp ⟨0, by simp [h1]⟩
  have hpf : ¬ isPow2Valid m1.length = true := fun hp => by
    obtain ⟨k, _, hk⟩ := (isPow2Valid_iff _).mp hp
    exact hnp ⟨k, hk⟩
  by_cases hherm : isHermitian m = true
  · rw [if_pos hherm] at hbranch
    simp only [Prod.mk.injEq] at hbranch
    obtain ⟨rfl, rfl, rfl⟩ := hbranch
    have hd2 : 2 ≤ List.length m1 := by omega
    refine ⟨?_, padMatrix_length _ _, (nextPow2_eq_pow _).imp
        (fun k hk => hk.2), le_nextPow2 _, fun j hj => nextPow2_min_all hd2 hj⟩
    rw [normalize_hermitian_branch hsq hlen hherm]
    unfold pow2Step
    rw [if_neg hpf]
  · rw [if_neg hherm] at hbranch
    simp only [Prod.mk.injEq] at hbranch
    obtain ⟨rfl, rfl, rfl⟩ := hbranch
    have hlen2 : (hermitianEmbed m).length = 2 * m.length := hermitianEmbed_length m
    have hd2 : 2 ≤ (hermitianEmbed m).length := by omega
    refine ⟨?_, padMatrix_length _ _, nextPow2_eq_pow _ |>.imp
        (fun k hk => hk.2), le_nextPow2 _, fun j hj => nextPow2_min_all hd2 hj⟩
    rw [normalize_nonhermitian_branch hsq hlen (by simpa using hherm)]
    unfold pow2Step
    rw [if_neg hpf]

/-- A 3-by-3 Hermitian system whose dimension is not a power of two. -/
def dim3Matrix : Mat ℚ := [[1, 0, 0], [0, 2, 0], [0, 0, 3]]

/-- Right-hand side paired with `dim3Matrix`. -/
def dim3Vector : List ℚ := [1, 2, 3]

/-- Witness for C3 at the 3-by-3 Hermitian input: padded up to dimension 4. -/
theorem normalize_pads_to_least_pow2_witness :
    (isSquare dim3Matrix = true ∧
     dim3Vector.length = dim3Matrix.length ∧
     0 < dim3Matrix.length ∧
     ((dim3Matrix, dim3Vector, false) = if isHermitian dim3Matrix = true
        then (dim3Matrix, dim3Vector, false)
        else (hermitianEmbed dim3Matrix,
          padVector dim3Vector (2 * dim3Matrix.length), true)) ∧
     ¬ ∃ k, dim3Matrix.length = 2 ^ k) ∧
    (normalize dim3Matrix dim3Vector
      = Except.ok ⟨padMatrix dim3Matrix (nextPow2 dim3Matrix.length),
          padVector dim3Vector (nextPow2 dim3Matrix.length), true, false⟩ ∧
     (padMatrix dim3Matrix (nextPow2 dim3Matrix.length)).length
        = nextPow2 dim3Matrix.length ∧
     (∃ k, nextPow2 dim3Matrix.length = 2 ^ k) ∧
     dim3Matrix.length ≤ nextPow2 dim3Matrix.length ∧
     (∀ j, dim3Matrix.length ≤ 2 ^ j → nextPow2 dim3Matrix.length ≤ 2 ^ j)) := by
  have hnp : ¬ ∃ k, (dim3Matrix : Mat ℚ).length = 2 ^ k := by
    rintro ⟨k, hk⟩
    have h3 : (dim3Matrix : Mat ℚ).length = 3 := by decide
    rw [h3] at hk
    rcases k with _ | _ | k
    · simp at hk
    · simp at hk
    · have h4 : 2 ^ 2 ≤ 2 ^ (k + 2) :=
        Nat.pow_le_pow_right (by norm_num) (by omega)
      norm_num at h4
      omega
  exact ⟨⟨by decide, by decide, by decide, by decide, hnp⟩,
    normalize_pads_to_least_pow2 dim3Matrix dim3Vector dim3Matrix dim3Vector
      false (by decide) (by decide) (by decide) (by decide) hnp⟩

/-- C7 counterexample: the 1-by-1 input `[[i]]` over the Gaussian integers is
not self-adjoint, so it reaches dimension 2 through the Hermitian doubling and
`truncate_powerdim` comes back `false`, refuting "every 1-by-1 input ... sets
`truncate_powerdim = true`". -/
theorem normalize_one_by_one_counterexample :
    normalize [[(⟨0, 1⟩ : Zsqrtd (-1))]] [1]
      = Except.ok ⟨[[0, ⟨0, 1⟩], [⟨0, -1⟩, 0]], [1, 0], false, true⟩ := by
  decide

/-- C7 amended: every 1-by-1 input with a self-adjoint entry (in particular
the real input `[[5]]`, `[3]`) is padded to dimension 2 with
`truncate_powerdim = true` and `truncate_hermitian = false`. -/
theorem normalize_one_by_one_selfadjoint {R : Type} [CommRing R] [StarRing R]
    [DecidableEq R] (a x : R) (ha : star a = a) :
    normalize [[a]] [x]
      = Except.ok ⟨padMatrix [[a]] 2, padVector [x] 2, true, false⟩ ∧
    (padMatrix [[a]] 2).length = 2 := by
  have hct : conjTranspose [[a]] = [[star a]] := rfl
  have hherm : isHermitian [[a]] = true := by
    rw [isHermitian, hct, ha]
    simp
  have hsq : isSquare [[a]] = true := rfl
  have hlen : [x].length = [[a]].length := rfl
  refine ⟨?_, padMatrix_length _ _⟩
  rw [normalize_hermitian_branch hsq hlen hherm]
  unfold pow2Step
  rw [if_neg (show ¬ isPow2Valid ([[a]] : Mat R).length = true from fun hc =>
    Bool.noConfusion ((rfl : isPow2Valid ([[a]] : Mat R).length = false) ▸ hc))]
  rfl

/-- Witness for the amended C7 at the spec's concrete `[[5]]`, `[3]` input. -/
theorem normalize_one_by_one_selfadjoint_witness :
    star (5 : ℚ) = 5 ∧
    (normalize [[(5 : ℚ)]] [3]
        = Except.ok ⟨padMatrix [[(5 : ℚ)]] 2, padVector [(3 : ℚ)] 2,
            true, false⟩ ∧
     (padMatrix [[(5 : ℚ)]] 2).length = 2) :=
  ⟨rfl, normalize_one_by_one_selfadjoint 5 3 rfl⟩

/-- C8: `normalize` is a deterministic function of its inputs — two runs on
equal `(matrix, vector)` pairs produce equal outputs. -/
theorem normalize_deterministic {R : Type} [CommRing R] [StarRing R]
    [DecidableEq R] (m1 m2 : Mat R) (v1 v2 : List R)
    (hm : m1 = m2) (hv : v1 = v2) :
    normalize m1 v1 = normalize m2 v2 := by
  rw [hm, hv]

/-- Witness for C8 at the notebook input. -/
theorem normalize_deterministic_witness :
    exampleMatrix = exampleMatrix ∧ exampleVector = exampleVector ∧
    normalize exampleMatrix exampleVector
      = normalize exampleMatrix exampleVector :=
  ⟨rfl, rfl, normalize_deterministic exampleMatrix exampleMatrix
    exampleVector exampleVector rfl rfl⟩

end HHLNorm

namespace HHLNotebook

/-- The QFT components the notebook passes around (`StandardQFTS n` /
`StandardIQFTS n`), identified by their registered size. -/
inductive QFTKind : Type where
  | standardQFT : Nat → QFTKind
  | standardIQFT : Nat → QFTKind
deriving DecidableEq, Repr

/-- The `MatrixOperator(matrix=matrix)` wrapper from the notebook. -/
structure MatrixOperator (M : Type) : Type where
  matrix : M

/-- Constructor arguments of the `EigsQPE` object built by `create_eigs`. -/
structure EigsQPE (M : Type) : Type where
  operator : MatrixOperator M
  iqft : QFTKind
  num_time_slices : Nat
  num_ancillae : Nat
  expansion_mode : String
  expansion_order : Nat
  evo_time : Option ℚ
  negative_evals : Bool
  ne_qfts : List (Option QFTKind)

/-- Embedded from the notebook's `create_eigs`: bumps the ancilla count and
installs the negative-eigenvalue QFT pair when `negative_evals` is set. -/
def create_eigs {M : Type} (matrix : M) (num_ancillae : Nat)
    (negative_evals : Bool) : EigsQPE M :=
  let na := if negative_evals then num_ancillae + 1 else num_ancillae
  let ne_qfts : List (Option QFTKind) :=
    if negative_evals then
      [some (QFTKind.standardQFT (na - 1)), some (QFTKind.standardIQFT (na - 1))]
    else [none, none]
  { operator := { matrix := matrix }
    iqft := QFTKind.standardIQFT na
    num_time_slices := 50
    num_ancillae := na
    expansion_mode := "suzuki"
    expansion_order := 2
    evo_time := none
    negative_evals := negative_evals
    ne_qfts := ne_qfts }

/-- C9: with `negative_evals = false` the `EigsQPE` gets exactly the given
ancilla count and `ne_qfts = [None, None]`; with `negative_evals = true` it
gets one extra ancilla and a QFT / inverse-QFT pair sized at the original
`num_ancillae`. -/
theorem create_eigs_ancillae_ne_qfts {M : Type} (matrix : M) (n : Nat) :
    ((create_eigs matrix n false).num_ancillae = n ∧
     (create_eigs matrix n false).ne_qfts = [none, none]) ∧
    ((create_eigs matrix n true).num_ancillae = n + 1 ∧
     (create_eigs matrix n true).ne_qfts
       = [some (QFTKind.standardQFT n), some (QFTKind.standardIQFT n)]) :=
  ⟨⟨rfl, rfl⟩, ⟨rfl, rfl⟩⟩

/-- Euclidean norm as `np.linalg.norm` computes it on a complex vector. -/
noncomputable def linalgNorm (v : List ℂ) : ℝ :=
  Real.sqrt (v.map Complex.normSq).sum

/-- A solution vector divided by its Euclidean norm, as in
`hhl / np.linalg.norm(hhl)`. -/
noncomputable def normed (v : List ℂ) : List ℂ :=
  v.map fun x => x / (linalgNorm v : ℂ)

/-- Embedded from the notebook's `fidelity`: normalize both solutions, then
report the SDK's `state_fidelity` (kept abstract as a parameter) of the
normalized pair. -/
noncomputable def fidelity (state_fidelity : List ℂ → List ℂ → ℝ)
    (hhl ref : List ℂ) : ℝ :=
  state_fidelity (normed hhl) (normed ref)

theorem linalgNorm_smul (a : ℝ) (ha : 0 ≤ a) (v : List ℂ) :
    linalgNorm (v.map fun x => (a : ℂ) * x) = a * linalgNorm v := by
  unfold linalgNorm
  rw [List.map_map]
  have h1 : (Complex.normSq ∘ fun x => (a : ℂ) * x)
      = fun x => a ^ 2 * Complex.normSq x := by
    funext x
    simp only [Function.comp_apply, Complex.normSq_mul, Complex.normSq_ofReal]
    ring
  rw [h1, List.sum_map_mul_left, Real.sqrt_mul (sq_nonneg a),
    Real.sqrt_sq ha]

theorem normed_smul {a : ℝ} (ha : 0 < a) (v : List ℂ) :
    normed (v.map fun x => (a : ℂ) * x) = normed v := by
  unfold normed
  rw [List.map_map, linalgNorm_smul a ha.le v]
  refine List.map_congr_left fun x hx => ?_
  simp only [Function.comp_apply]
  rw [Complex.ofReal_mul]
  exact mul_div_mul_left x _ (Complex.ofReal_ne_zero.mpr ha.ne')

/-- C10: `fidelity` is invariant under positive rescaling of either argument,
since both arguments are divided by their Euclidean norm before
`state_fidelity` is applied. -/
theorem fidelity_scale_invariant (sf : List ℂ → List ℂ → ℝ)
    (hhl ref : List ℂ) (a b : ℝ) (ha : 0 < a) (hb : 0 < b)
    (hhl0 : ∃ x ∈ hhl, x ≠ 0) (href0 : ∃ x ∈ ref, x ≠ 0) :
    fidelity sf (hhl.map fun x => (a : ℂ) * x) (ref.map fun x => (b : ℂ) * x)
      = fidelity sf hhl ref := by
  unfold fidelity
  rw [normed_smul ha, normed_smul hb]

/-- Witness for C10 with scalars 2 and 3 on the vector `[1]`. -/
theorem fidelity_scale_invariant_witness :
    (0 : ℝ) < 2 ∧ (0 : ℝ) < 3 ∧
    (∃ x ∈ [(1 : ℂ)], x ≠ 0) ∧ (∃ x ∈ [(1 : ℂ)], x ≠ 0) ∧
    fidelity (fun _ _ => 0) ([(1 : ℂ)].map fun x => ((2 : ℝ) : ℂ) * x)
        ([(1 : ℂ)].map fun x => ((3 : ℝ) : ℂ) * x)
      = fidelity (fun _ _ => 0) [(1 : ℂ)] [(1 : ℂ)] :=
  ⟨by norm_num, by norm_num, ⟨1, by simp⟩, ⟨1, by simp⟩,
    fidelity_scale_invariant (fun _ _ => 0) [1] [1] 2 3 (by norm_num)
      (by norm_num) ⟨1, by simp⟩ ⟨1, by simp⟩⟩

end HHLNotebook
